import Mathlib

/-!
Verification of the text-composition and layout engine of the Telugu poster
generator (`App.tsx`, `services/geminiService.ts`).

Numbers are modelled as exact rationals (`ℚ`); the canvas 2D context is
modelled as abstract width-measurement functions `String → ℚ` (one per font,
parameterised by font size).  JavaScript `text.split(' ')` is modelled by
`splitWords`, `String.prototype.trim` by `jsTrim`, and truthiness of a string
by `≠ ""`.
-/

set_option maxRecDepth 1000000

namespace PosterGen

/-- Model of JavaScript `text.split(' ')`: split on every single space
character, keeping empty segments (so `"" ↦ [""]`, `"a  b" ↦ ["a","","b"]`). -/
def splitCharsAux : List Char → List Char → List (List Char)
  | [], acc => [acc.reverse]
  | c :: cs, acc =>
    if c = ' ' then acc.reverse :: splitCharsAux cs []
    else splitCharsAux cs (c :: acc)

/-- `text.split(' ')` from `wrapText` (App.tsx line 46). -/
def splitWords (t : String) : List String :=
  (splitCharsAux t.data []).map String.mk

/-- Model of JavaScript `String.prototype.trim`: drop whitespace from both
ends. -/
def jsTrim (s : String) : String :=
  String.mk (((s.data.dropWhile Char.isWhitespace).reverse.dropWhile
    Char.isWhitespace).reverse)

/-- The word-accumulation loop of `wrapText` (App.tsx lines 50-65).
State: remaining words, emitted `lines`, and `currentLine`. -/
def wrapTextLoop (measure : String → ℚ) (maxWidth : ℚ) :
    List String → List String → String → List String
  | [], lines, currentLine =>
    if currentLine ≠ "" then lines ++ [currentLine] else lines
  | word :: ws, lines, currentLine =>
    if maxWidth < measure (if currentLine ≠ "" then currentLine ++ " " ++ word else word)
        ∧ currentLine ≠ "" then
      wrapTextLoop measure maxWidth ws (lines ++ [currentLine]) word
    else
      wrapTextLoop measure maxWidth ws lines
        (if currentLine ≠ "" then currentLine ++ " " ++ word else word)

/-- `wrapText` (App.tsx lines 40-67).  The `CanvasRenderingContext2D` argument
is abstracted to the width-measurement function `measure`. -/
def wrapText (measure : String → ℚ) (text : String) (maxWidth : ℚ) : List String :=
  if text = "" then [] else wrapTextLoop measure maxWidth (splitWords text) [] ""

/-- The inputs of one overlay composition after the background image has
loaded: canvas dimensions (set to the image's dimensions, App.tsx lines
144-145), the two texts, and one measurement function per font family
(`ctx.font = bold <size>px ...` followed by `ctx.measureText`). -/
structure OverlayInput where
  width : ℚ
  height : ℚ
  engText : String
  telText : String
  measureEng : ℚ → String → ℚ
  measureTel : ℚ → String → ℚ

/-- `hasEnglish` (App.tsx line 151): `engText && engText.trim() !== ''`. -/
abbrev hasEnglish (p : OverlayInput) : Prop :=
  p.engText ≠ "" ∧ jsTrim p.engText ≠ ""

/-- `hasTelugu` (App.tsx line 152). -/
abbrev hasTelugu (p : OverlayInput) : Prop :=
  p.telText ≠ "" ∧ jsTrim p.telText ≠ ""

/-- `textMaxWidth = canvas.width * 0.85` (App.tsx line 153). -/
def textMaxWidth (p : OverlayInput) : ℚ := p.width * 0.85

/-- `availableHeightForText = canvas.height * 0.85` (App.tsx line 155). -/
def availableHeightForText (p : OverlayInput) : ℚ := p.height * 0.85

/-- `minFontSize = Math.max(8, canvas.width / 70)` (App.tsx line 156). -/
def minFontSize (p : OverlayInput) : ℚ := max 8 (p.width / 70)

/-- `interTextPadding = Math.max(15, canvas.height * 0.03)` (App.tsx line 157). -/
def interTextPadding (p : OverlayInput) : ℚ := max 15 (p.height * 0.03)

/-- Initial `englishFontSize` (App.tsx line 159). -/
def initialEnglishFontSize (p : OverlayInput) : ℚ :=
  max (minFontSize p) (min (p.width / 18) (p.height / 15))

/-- Initial `teluguFontSize` (App.tsx line 160). -/
def initialTeluguFontSize (p : OverlayInput) : ℚ :=
  max (minFontSize p) (min (p.width / 16) (p.height / 12))

/-- `lineHeight = fontSize * 1.2` (App.tsx lines 171-172, 204-205). -/
def lineHeight (fontSize : ℚ) : ℚ := fontSize * 1.2

/-- The English line set at a given font size (App.tsx lines 174-181:
empty when `!hasEnglish`, otherwise `wrapText`). -/
def englishLines (p : OverlayInput) (f : ℚ) : List String :=
  if hasEnglish p then wrapText (p.measureEng f) p.engText (textMaxWidth p) else []

/-- The Telugu line set at a given font size (App.tsx lines 183-190). -/
def teluguLines (p : OverlayInput) (f : ℚ) : List String :=
  if hasTelugu p then wrapText (p.measureTel f) p.telText (textMaxWidth p) else []

/-- `englishBlockHeight = englishLines.length * englishLineHeight`
(App.tsx line 177; `0` when `!hasEnglish`, line 180, since the line set is
empty then). -/
def englishBlockHeight (p : OverlayInput) (f : ℚ) : ℚ :=
  ((englishLines p f).length : ℚ) * lineHeight f

/-- `teluguBlockHeight` (App.tsx line 186). -/
def teluguBlockHeight (p : OverlayInput) (f : ℚ) : ℚ :=
  ((teluguLines p f).length : ℚ) * lineHeight f

/-- The condition guarding the inter-block padding term (App.tsx lines
193, 222): both texts present and both wrapped line sets non-empty. -/
abbrev padApplies (p : OverlayInput) (eF tF : ℚ) : Prop :=
  hasEnglish p ∧ hasTelugu p ∧
    0 < (englishLines p eF).length ∧ 0 < (teluguLines p tF).length

/-- `totalTextHeight` (App.tsx lines 192-194 and 221-223). -/
def totalTextHeight (p : OverlayInput) (eF tF : ℚ) : ℚ :=
  englishBlockHeight p eF +
    (if padApplies p eF tF then interTextPadding p else 0) +
    teluguBlockHeight p tF

/-- One shrink step of the font-fit loop (App.tsx lines 199-200): each block's
size is multiplied by 0.9 and floored at `minFontSize`, but only when that
block's text is present and its size is still above the floor. -/
def shrinkSizes (p : OverlayInput) (s : ℚ × ℚ) : ℚ × ℚ :=
  (if hasEnglish p ∧ minFontSize p < s.1 then max (minFontSize p) (s.1 * 0.9) else s.1,
   if hasTelugu p ∧ minFontSize p < s.2 then max (minFontSize p) (s.2 * 0.9) else s.2)

/-- The font-fit loop (App.tsx lines 169-202) as fuel-bounded recursion on the
remaining iteration count: each iteration re-derives lines and heights from
the current sizes, stops when the stack fits or both sizes are at the floor,
and otherwise shrinks and continues. -/
def fitLoop (p : OverlayInput) : ℕ → ℚ × ℚ → ℚ × ℚ
  | 0, s => s
  | n + 1, s =>
    if totalTextHeight p s.1 s.2 ≤ availableHeightForText p then s
    else if s.1 ≤ minFontSize p ∧ s.2 ≤ minFontSize p then s
    else fitLoop p n (shrinkSizes p s)

/-- `maxIterations = 20` (App.tsx line 169). -/
def maxIterations : ℕ := 20

/-- The settled font sizes after the loop (english, telugu). -/
def finalSizes (p : OverlayInput) : ℚ × ℚ :=
  fitLoop p maxIterations (initialEnglishFontSize p, initialTeluguFontSize p)

/-- The settled `englishFontSize` used for painting. -/
def finalEnglishFontSize (p : OverlayInput) : ℚ := (finalSizes p).1

/-- The settled `teluguFontSize` used for painting. -/
def finalTeluguFontSize (p : OverlayInput) : ℚ := (finalSizes p).2

/-- `englishLines` re-derived at the settled size (App.tsx lines 206-212). -/
def finalEnglishLines (p : OverlayInput) : List String :=
  englishLines p (finalEnglishFontSize p)

/-- `teluguLines` re-derived at the settled size (App.tsx lines 213-219). -/
def finalTeluguLines (p : OverlayInput) : List String :=
  teluguLines p (finalTeluguFontSize p)

/-- `englishBlockHeight` at the settled size. -/
def finalEnglishBlockHeight (p : OverlayInput) : ℚ :=
  englishBlockHeight p (finalEnglishFontSize p)

/-- `teluguBlockHeight` at the settled size. -/
def finalTeluguBlockHeight (p : OverlayInput) : ℚ :=
  teluguBlockHeight p (finalTeluguFontSize p)

/-- `totalActualTextHeight` (App.tsx lines 221-223). -/
def finalTotalTextHeight (p : OverlayInput) : ℚ :=
  totalTextHeight p (finalEnglishFontSize p) (finalTeluguFontSize p)

/-- The initial `currentY = (canvas.height - totalActualTextHeight) / 2`
(App.tsx line 224). -/
def startY (p : OverlayInput) : ℚ := (p.height - finalTotalTextHeight p) / 2

/-- One block's stroke/fill calls (App.tsx lines 238-242, 257-261): the i-th
line is drawn at `centerY - ((length - 1)/2 - i) * lineHeight`, horizontally
at `x`.  Each entry is `(text, x, y)`. -/
def drawBlock (lines : List String) (x centerY lh : ℚ) : List (String × ℚ × ℚ) :=
  lines.enum.map fun iw =>
    (iw.2, x, centerY - (((lines.length : ℚ) - 1) / 2 - (iw.1 : ℚ)) * lh)

/-- The sequence of text draw calls of the compositor (App.tsx lines 224-262),
with the `currentY` updates inlined: after centering on the English block
(`+= englishBlockHeight / 2`), `currentY` advances past the block and the
conditional padding, then centers on the Telugu block. -/
def drawnLines (p : OverlayInput) : List (String × ℚ × ℚ) :=
  if hasEnglish p ∧ 0 < (finalEnglishLines p).length then
    drawBlock (finalEnglishLines p) (p.width / 2)
        (startY p + finalEnglishBlockHeight p / 2)
        (lineHeight (finalEnglishFontSize p)) ++
      (if hasTelugu p ∧ 0 < (finalTeluguLines p).length then
        drawBlock (finalTeluguLines p) (p.width / 2)
          (startY p + finalEnglishBlockHeight p / 2 + finalEnglishBlockHeight p / 2 +
            (if hasTelugu p ∧ 0 < (finalTeluguLines p).length then interTextPadding p else 0) +
            finalTeluguBlockHeight p / 2)
          (lineHeight (finalTeluguFontSize p))
      else [])
  else if hasTelugu p ∧ 0 < (finalTeluguLines p).length then
    drawBlock (finalTeluguLines p) (p.width / 2)
      (startY p + finalTeluguBlockHeight p / 2)
      (lineHeight (finalTeluguFontSize p))
  else []

/-- Concatenation of lines with single spaces (used to state that wrapping
preserves the original text). -/
def joinWithSpaces : List String → String
  | [] => ""
  | [l] => l
  | l :: l' :: ls => l ++ " " ++ joinWithSpaces (l' :: ls)

/-- Character-level variant of `joinWithSpaces`. -/
def joinChars : List (List Char) → List Char
  | [] => []
  | [w] => w
  | w :: w' :: ws => w ++ ' ' :: joinChars (w' :: ws)

/-- No two adjacent characters are both spaces. -/
def pairwiseNonSpace : List Char → Prop
  | [] => True
  | [_] => True
  | a :: b :: t => (a ≠ ' ' ∨ b ≠ ' ') ∧ pairwiseNonSpace (b :: t)

instance instDecidablePairwiseNonSpace : (l : List Char) → Decidable (pairwiseNonSpace l)
  | [] => Decidable.isTrue trivial
  | [_] => Decidable.isTrue trivial
  | a :: b :: t =>
    have : Decidable (pairwiseNonSpace (b :: t)) := instDecidablePairwiseNonSpace (b :: t)
    inferInstanceAs (Decidable ((a ≠ ' ' ∨ b ≠ ' ') ∧ pairwiseNonSpace (b :: t)))

/-- A text with no leading, trailing, or consecutive space characters. -/
abbrev wellSpaced (t : String) : Prop :=
  t.data.head? ≠ some ' ' ∧ t.data.getLast? ≠ some ' ' ∧ pairwiseNonSpace t.data

/-- The environment of one `drawImageWithTextOverlay` call: whether
`canvasRef.current` is non-null (App.tsx line 130), whether `getContext('2d')`
succeeds (line 135), and the outcome of the asynchronous image load — `some`
dimensions when `onload` fires (line 143), `none` when `onerror` fires
(line 271). -/
structure CanvasEnv where
  canvasFound : Bool
  contextOk : Bool
  loadedImage : Option (ℚ × ℚ)

/-- The resolved value of `drawImageWithTextOverlay`:
`canvas.toDataURL('image/png')` (App.tsx line 269), modelled as the MIME type
together with the composed canvas content (its dimensions and the text draw
calls painted over the background image). -/
structure PngDataUrl where
  mime : String
  imageWidth : ℚ
  imageHeight : ℚ
  textOps : List (String × ℚ × ℚ)

/-- `drawImageWithTextOverlay` (App.tsx lines 127-279).  The promise is
modelled as `Except`: `Except.error` for a rejection, `Except.ok` for a
resolution.  The error branches and messages follow lines 130-139 and
271-274; the success branch composes the overlay and serializes the canvas
(lines 143-269). -/
def drawImageWithTextOverlay (env : CanvasEnv) (measureE measureT : ℚ → String → ℚ)
    (engText telText : String) : Except String PngDataUrl :=
  if env.canvasFound = false then Except.error "Canvas element not found"
  else if env.contextOk = false then Except.error "Failed to get canvas context"
  else
    match env.loadedImage with
    | none => Except.error "Failed to load base image."
    | some wh =>
      Except.ok
        { mime := "image/png", imageWidth := wh.1, imageHeight := wh.2,
          textOps := drawnLines ⟨wh.1, wh.2, engText, telText, measureE, measureT⟩ }

/-- `LanguagePreference` (App.tsx line 19). -/
inductive LanguagePreference
  | english
  | telugu
  | both
deriving DecidableEq

/-- `PosterDetails` (geminiService.ts lines 21-25). -/
structure PosterDetails where
  theme : String
  englishText : String
  teluguText : String

/-- First override of the language-preference validation (geminiService.ts
lines 179-182): when English only was requested and the provider returned
Telugu text, the Telugu text is overridden to the empty string. -/
def suppressTelugu (pref : LanguagePreference) (d : PosterDetails) : PosterDetails :=
  if pref = LanguagePreference.english ∧ d.teluguText ≠ "" then
    { d with teluguText := "" }
  else d

/-- Second override of the language-preference validation (geminiService.ts
lines 183-186): when Telugu only was requested and the provider returned
English text, the English text is overridden to the empty string. -/
def suppressEnglish (pref : LanguagePreference) (d : PosterDetails) : PosterDetails :=
  if pref = LanguagePreference.telugu ∧ d.englishText ≠ "" then
    { d with englishText := "" }
  else d

/-- The language-preference validation applied to the parsed provider
response inside `extractPosterDetailsFromPrompt` before it is returned
(geminiService.ts lines 178-190): the two overrides applied in source
order. -/
def validatePosterDetails (pref : LanguagePreference) (d : PosterDetails) : PosterDetails :=
  suppressEnglish pref (suppressTelugu pref d)

/-- A concrete composition input: empty English text, twelve Telugu words, a
measurement function that makes every test line wider than the budget, on a
162-by-135 canvas. -/
def wideInput : OverlayInput where
  width := 162
  height := 135
  engText := ""
  telText := "a a a a a a a a a a a a"
  measureEng := fun _ _ => 10000
  measureTel := fun _ _ => 10000

/-- A concrete composition input matching the spec's first scenario example:
a 1920-by-1080 canvas, English text only. -/
def sampleInput : OverlayInput where
  width := 1920
  height := 1080
  engText := "Happy Ugadi to All!"
  telText := ""
  measureEng := fun _ s => (s.data.length : ℚ) * 10
  measureTel := fun _ s => (s.data.length : ℚ) * 10

/-- A concrete composition input whose English text is empty and whose Telugu
text is whitespace-only. -/
def blankInput : OverlayInput where
  width := 100
  height := 100
  engText := ""
  telText := " "
  measureEng := fun _ _ => 1
  measureTel := fun _ _ => 1

theorem data_append (a b : String) : (a ++ b).data = a.data ++ b.data := by
  cases a
  cases b
  rfl

theorem mk_eq_empty_iff (l : List Char) : String.mk l = "" ↔ l = [] := by
  constructor
  · intro h
    have h2 := congrArg String.data h
    simpa using h2
  · intro h
    subst h
    rfl

theorem data_mk (l : List Char) : (String.mk l).data = l := rfl

theorem data_space : (" " : String).data = [' '] := rfl

theorem string_data_ext {a b : String} (h : a.data = b.data) : a = b := by
  cases a
  cases b
  exact congrArg String.mk h

theorem string_append_assoc (a b c : String) : a ++ b ++ c = a ++ (b ++ c) := by
  cases a
  cases b
  cases c
  exact congrArg String.mk (List.append_assoc _ _ _)

theorem append_sep_ne_empty (a b : String) : a ++ " " ++ b ≠ "" := by
  intro h
  have h2 := congrArg String.data h
  rw [data_append, data_append] at h2
  simp at h2

/-- Invariant of the wrap loop: every emitted line either fits the width
budget or is one of the words supplied to the loop. -/
theorem wrapTextLoop_width (m : String → ℚ) (mw : ℚ) (W : List String) :
    ∀ (ws lines : List String) (cur : String),
      (∀ w ∈ ws, w ∈ W) →
      (∀ l ∈ lines, m l ≤ mw ∨ l ∈ W) →
      (cur = "" ∨ m cur ≤ mw ∨ cur ∈ W) →
      ∀ l ∈ wrapTextLoop m mw ws lines cur, m l ≤ mw ∨ l ∈ W := by
  intro ws
  induction ws with
  | nil =>
    intro lines cur _ hlines hcur l hl
    unfold wrapTextLoop at hl
    by_cases hc : cur = ""
    · simp only [hc, ne_eq, not_true_eq_false, if_false] at hl
      exact hlines l hl
    · simp only [ne_eq, hc, not_false_eq_true, if_true, List.mem_append,
        List.mem_singleton] at hl
      rcases hl with hl | rfl
      · exact hlines l hl
      · rcases hcur with h | h
        · exact absurd h hc
        · exact h
  | cons w ws ih =>
    intro lines cur hws hlines hcur l hl
    unfold wrapTextLoop at hl
    by_cases hc : cur = ""
    · rw [hc] at hl
      rw [if_neg (fun h => h.2 rfl), if_neg (fun h => h rfl)] at hl
      exact ih lines w (fun x hx => hws x (List.mem_cons_of_mem _ hx)) hlines
        (Or.inr (Or.inr (hws w (List.mem_cons_self _ _)))) l hl
    · rw [if_pos hc] at hl
      by_cases hlt : mw < m (cur ++ " " ++ w)
      · rw [if_pos ⟨hlt, hc⟩] at hl
        refine ih (lines ++ [cur]) w (fun x hx => hws x (List.mem_cons_of_mem _ hx)) ?_
          (Or.inr (Or.inr (hws w (List.mem_cons_self _ _)))) l hl
        intro x hx
        rcases List.mem_append.mp hx with hx | hx
        · exact hlines x hx
        · rcases List.mem_singleton.mp hx with rfl
          rcases hcur with h' | h'
          · exact absurd h' hc
          · exact h'
      · rw [if_neg (fun h => hlt h.1)] at hl
        exact ih lines (cur ++ " " ++ w) (fun x hx => hws x (List.mem_cons_of_mem _ hx))
          hlines (Or.inr (Or.inl (le_of_not_lt hlt))) l hl

/-- C2: every line produced by `wrapText` has measured width at most
`maxWidth`, except a line that is a single source word whose own measured
width exceeds `maxWidth`; such a word forms the whole line (it is never
split). -/
theorem c2_wrap_width (measure : String → ℚ) (text : String) (maxWidth : ℚ) :
    ∀ line ∈ wrapText measure text maxWidth,
      measure line ≤ maxWidth ∨
        (line ∈ splitWords text ∧ maxWidth < measure line) := by
  intro line hline
  unfold wrapText at hline
  split at hline
  · simp at hline
  · have h := wrapTextLoop_width measure maxWidth (splitWords text)
      (splitWords text) [] "" (fun w hw => hw) (by simp) (Or.inl rfl) line hline
    rcases le_or_lt (measure line) maxWidth with hle | hlt
    · exact Or.inl hle
    · rcases h with h | h
      · exact Or.inl h
      · exact Or.inr ⟨h, hlt⟩

/-- The wrap loop never emits an empty line: a line is pushed only when
`currentLine` is non-empty. -/
theorem wrapTextLoop_lines_ne_empty (m : String → ℚ) (mw : ℚ) :
    ∀ (ws lines : List String) (cur : String),
      (∀ l ∈ lines, l ≠ "") →
      ∀ l ∈ wrapTextLoop m mw ws lines cur, l ≠ "" := by
  intro ws
  induction ws with
  | nil =>
    intro lines cur hlines l hl
    unfold wrapTextLoop at hl
    by_cases hc : cur = ""
    · rw [if_neg (fun h => h hc)] at hl
      exact hlines l hl
    · rw [if_pos hc] at hl
      rcases List.mem_append.mp hl with hl | hl
      · exact hlines l hl
      · rcases List.mem_singleton.mp hl with rfl
        exact hc
  | cons w ws ih =>
    intro lines cur hlines l hl
    unfold wrapTextLoop at hl
    by_cases hc : cur = ""
    · rw [hc] at hl
      rw [if_neg (fun h => h.2 rfl), if_neg (fun h => h rfl)] at hl
      exact ih lines w hlines l hl
    · rw [if_pos hc] at hl
      by_cases hlt : mw < m (cur ++ " " ++ w)
      · rw [if_pos ⟨hlt, hc⟩] at hl
        refine ih (lines ++ [cur]) w ?_ l hl
        intro x hx
        rcases List.mem_append.mp hx with hx | hx
        · exact hlines x hx
        · rcases List.mem_singleton.mp hx with rfl
          exact hc
      · rw [if_neg (fun h => hlt h.1)] at hl
        exact ih lines (cur ++ " " ++ w) hlines l hl

/-- The wrap loop returns a non-empty line list whenever it already holds an
emitted line or a non-empty `currentLine`. -/
theorem wrapTextLoop_ne_nil (m : String → ℚ) (mw : ℚ) :
    ∀ (ws lines : List String) (cur : String),
      (lines ≠ [] ∨ cur ≠ "") →
      wrapTextLoop m mw ws lines cur ≠ [] := by
  intro ws
  induction ws with
  | nil =>
    intro lines cur hst
    unfold wrapTextLoop
    by_cases hc : cur = ""
    · rw [if_neg (fun h => h hc)]
      rcases hst with h | h
      · exact h
      · exact absurd hc h
    · rw [if_pos hc]
      simp
  | cons w ws ih =>
    intro lines cur hst
    unfold wrapTextLoop
    by_cases hc : cur = ""
    · rw [hc]
      rw [if_neg (fun h => h.2 rfl), if_neg (fun h => h rfl)]
      refine ih lines w ?_
      rcases hst with h | h
      · exact Or.inl h
      · exact absurd hc h
    · rw [if_pos hc]
      by_cases hlt : mw < m (cur ++ " " ++ w)
      · rw [if_pos ⟨hlt, hc⟩]
        exact ih (lines ++ [cur]) w (Or.inl (by simp))
      · rw [if_neg (fun h => hlt h.1)]
        exact ih lines (cur ++ " " ++ w) (Or.inr (append_sep_ne_empty cur w))

/-- The wrap loop returns a non-empty line list whenever some remaining word
is non-empty. -/
theorem wrapTextLoop_ne_nil_of_word (m : String → ℚ) (mw : ℚ) :
    ∀ (ws lines : List String) (cur : String),
      (∃ w ∈ ws, w ≠ "") →
      wrapTextLoop m mw ws lines cur ≠ [] := by
  intro ws
  induction ws with
  | nil =>
    intro lines cur hex
    rcases hex with ⟨w, hw, _⟩
    simp at hw
  | cons w ws ih =>
    intro lines cur hex
    unfold wrapTextLoop
    by_cases hc : cur = ""
    · rw [hc]
      rw [if_neg (fun h => h.2 rfl), if_neg (fun h => h rfl)]
      by_cases hw : w = ""
      · refine ih lines w ?_
        rcases hex with ⟨x, hx, hxne⟩
        rcases List.mem_cons.mp hx with rfl | hx
        · exact absurd hw hxne
        · exact ⟨x, hx, hxne⟩
      · exact wrapTextLoop_ne_nil m mw ws lines w (Or.inr hw)
    · rw [if_pos hc]
      by_cases hlt : mw < m (cur ++ " " ++ w)
      · rw [if_pos ⟨hlt, hc⟩]
        exact wrapTextLoop_ne_nil m mw ws (lines ++ [cur]) w (Or.inl (by simp))
      · rw [if_neg (fun h => hlt h.1)]
        exact wrapTextLoop_ne_nil m mw ws lines (cur ++ " " ++ w)
          (Or.inr (append_sep_ne_empty cur w))

/-- `splitCharsAux` emits a non-empty word as soon as the remaining characters
or the accumulator contain a non-space character. -/
theorem splitCharsAux_exists_word :
    ∀ (cs acc : List Char),
      ((∃ c ∈ cs, c ≠ ' ') ∨ (∃ c ∈ acc, c ≠ ' ')) →
      ∃ w ∈ splitCharsAux cs acc, w ≠ [] := by
  intro cs
  induction cs with
  | nil =>
    intro acc hex
    rcases hex with ⟨c, hc, _⟩ | ⟨c, hc, _⟩
    · simp at hc
    · refine ⟨acc.reverse, by simp [splitCharsAux], ?_⟩
      simp only [ne_eq, List.reverse_eq_nil_iff]
      exact List.ne_nil_of_mem hc
  | cons c cs ih =>
    intro acc hex
    unfold splitCharsAux
    by_cases hsp : c = ' '
    · rw [if_pos hsp]
      rcases hex with ⟨x, hx, hxne⟩ | ⟨x, hx, hxne⟩
      · rcases List.mem_cons.mp hx with rfl | hx
        · exact absurd hsp hxne
        · rcases ih [] (Or.inl ⟨x, hx, hxne⟩) with ⟨w, hw, hwne⟩
          exact ⟨w, List.mem_cons_of_mem _ hw, hwne⟩
      · refine ⟨acc.reverse, List.mem_cons_self _ _, ?_⟩
        simp only [ne_eq, List.reverse_eq_nil_iff]
        exact List.ne_nil_of_mem hx
    · rw [if_neg hsp]
      exact ih (c :: acc) (Or.inr ⟨c, List.mem_cons_self _ _, hsp⟩)

/-- If the text contains a non-space character then `splitWords` contains a
non-empty word. -/
theorem splitWords_exists_word {t : String} (h : ∃ c ∈ t.data, c ≠ ' ') :
    ∃ w ∈ splitWords t, w ≠ "" := by
  rcases splitCharsAux_exists_word t.data [] (Or.inl h) with ⟨w, hw, hwne⟩
  refine ⟨String.mk w, List.mem_map.mpr ⟨w, hw, rfl⟩, ?_⟩
  intro hmk
  exact hwne ((mk_eq_empty_iff w).mp hmk)

/-- If the text contains a non-space character then `wrapText` returns at
least one line. -/
theorem wrapText_ne_nil (m : String → ℚ) (mw : ℚ) {t : String}
    (h : ∃ c ∈ t.data, c ≠ ' ') : wrapText m t mw ≠ [] := by
  have ht : t ≠ "" := by
    rcases h with ⟨c, hc, _⟩
    intro he
    rw [he] at hc
    simp at hc
  unfold wrapText
  rw [if_neg ht]
  exact wrapTextLoop_ne_nil_of_word m mw (splitWords t) [] "" (splitWords_exists_word h)

/-- A string surviving `jsTrim` contains a non-whitespace character. -/
theorem jsTrim_exists_nonspace {s : String} (h : jsTrim s ≠ "") :
    ∃ c ∈ s.data, c ≠ ' ' := by
  by_cases hall : ∀ c ∈ s.data, c.isWhitespace
  · exfalso
    apply h
    unfold jsTrim
    rw [List.dropWhile_eq_nil_iff.mpr hall]
    rfl
  · push_neg at hall
    rcases hall with ⟨c, hc, hcw⟩
    refine ⟨c, hc, ?_⟩
    intro hcsp
    rw [hcsp] at hcw
    exact hcw (by decide)

theorem eight_le_minFontSize (p : OverlayInput) : 8 ≤ minFontSize p :=
  le_max_left _ _

theorem minFontSize_pos (p : OverlayInput) : 0 < minFontSize p :=
  lt_of_lt_of_le (by norm_num) (eight_le_minFontSize p)

theorem le_shrinkSizes_fst (p : OverlayInput) (s : ℚ × ℚ)
    (h : minFontSize p ≤ s.1) : minFontSize p ≤ (shrinkSizes p s).1 := by
  unfold shrinkSizes
  dsimp only
  split
  · exact le_max_left _ _
  · exact h

theorem le_shrinkSizes_snd (p : OverlayInput) (s : ℚ × ℚ)
    (h : minFontSize p ≤ s.2) : minFontSize p ≤ (shrinkSizes p s).2 := by
  unfold shrinkSizes
  dsimp only
  split
  · exact le_max_left _ _
  · exact h

theorem fitLoop_succ (p : OverlayInput) (n : ℕ) (s : ℚ × ℚ) :
    fitLoop p (n + 1) s =
      if totalTextHeight p s.1 s.2 ≤ availableHeightForText p then s
      else if s.1 ≤ minFontSize p ∧ s.2 ≤ minFontSize p then s
      else fitLoop p n (shrinkSizes p s) := rfl

/-- Both font sizes stay at or above the floor throughout the fit loop. -/
theorem fitLoop_lb (p : OverlayInput) :
    ∀ (n : ℕ) (s : ℚ × ℚ), minFontSize p ≤ s.1 → minFontSize p ≤ s.2 →
      minFontSize p ≤ (fitLoop p n s).1 ∧ minFontSize p ≤ (fitLoop p n s).2 := by
  intro n
  induction n with
  | zero => intro s h1 h2; exact ⟨h1, h2⟩
  | succ n ih =>
    intro s h1 h2
    rw [fitLoop_succ]
    split
    · exact ⟨h1, h2⟩
    · split
      · exact ⟨h1, h2⟩
      · exact ih (shrinkSizes p s) (le_shrinkSizes_fst p s h1) (le_shrinkSizes_snd p s h2)

theorem minFontSize_le_finalEnglishFontSize (p : OverlayInput) :
    minFontSize p ≤ finalEnglishFontSize p :=
  (fitLoop_lb p maxIterations (initialEnglishFontSize p, initialTeluguFontSize p)
    (le_max_left _ _) (le_max_left _ _)).1

theorem minFontSize_le_finalTeluguFontSize (p : OverlayInput) :
    minFontSize p ≤ finalTeluguFontSize p :=
  (fitLoop_lb p maxIterations (initialEnglishFontSize p, initialTeluguFontSize p)
    (le_max_left _ _) (le_max_left _ _)).2

/-- C9: every line returned by `wrapText` is a non-empty string; a text with
at least one non-space character wraps to at least one line; consequently a
non-blank text block has a positive line count and a positive block height at
the solver's settled font sizes. -/
theorem c9_lines_nonempty (measure : String → ℚ) (text : String) (maxWidth : ℚ)
    (p : OverlayInput) :
    (∀ line ∈ wrapText measure text maxWidth, line ≠ "") ∧
    ((∃ c ∈ text.data, c ≠ ' ') → wrapText measure text maxWidth ≠ []) ∧
    (hasEnglish p → 0 < (finalEnglishLines p).length ∧ 0 < finalEnglishBlockHeight p) ∧
    (hasTelugu p → 0 < (finalTeluguLines p).length ∧ 0 < finalTeluguBlockHeight p) := by
  have hwrap : ∀ (m : String → ℚ) (mw : ℚ) (t : String),
      (∃ c ∈ t.data, c ≠ ' ') → (wrapText m t mw) ≠ [] := fun m mw t h =>
    wrapText_ne_nil m mw h
  refine ⟨?_, hwrap measure maxWidth text, ?_, ?_⟩
  · intro line hline
    unfold wrapText at hline
    split at hline
    · simp at hline
    · exact wrapTextLoop_lines_ne_empty measure maxWidth (splitWords text) [] ""
        (by simp) line hline
  · intro hE
    have hlen : finalEnglishLines p ≠ [] := by
      unfold finalEnglishLines englishLines
      rw [if_pos hE]
      exact hwrap _ _ _ (jsTrim_exists_nonspace hE.2)
    have hlen' : 0 < (finalEnglishLines p).length := List.length_pos.mpr hlen
    refine ⟨hlen', ?_⟩
    unfold finalEnglishBlockHeight englishBlockHeight lineHeight
    have hf : 0 < finalEnglishFontSize p :=
      lt_of_lt_of_le (minFontSize_pos p) (minFontSize_le_finalEnglishFontSize p)
    have : (0 : ℚ) < ((finalEnglishLines p).length : ℚ) := by exact_mod_cast hlen'
    exact mul_pos this (by linarith)
  · intro hT
    have hlen : finalTeluguLines p ≠ [] := by
      unfold finalTeluguLines teluguLines
      rw [if_pos hT]
      exact hwrap _ _ _ (jsTrim_exists_nonspace hT.2)
    have hlen' : 0 < (finalTeluguLines p).length := List.length_pos.mpr hlen
    refine ⟨hlen', ?_⟩
    unfold finalTeluguBlockHeight teluguBlockHeight lineHeight
    have hf : 0 < finalTeluguFontSize p :=
      lt_of_lt_of_le (minFontSize_pos p) (minFontSize_le_finalTeluguFontSize p)
    have : (0 : ℚ) < ((finalTeluguLines p).length : ℚ) := by exact_mod_cast hlen'
    exact mul_pos this (by linarith)

/-- Witness for C9 at a concrete input: the sample 1920-by-1080 English-only
composition has a non-blank English block with positive line count and
height. -/
theorem c9_lines_nonempty_witness :
    (∃ c ∈ ("Happy Ugadi to All!" : String).data, c ≠ ' ') ∧
    hasEnglish sampleInput ∧
    (wrapText (fun s => (s.data.length : ℚ)) "Happy Ugadi to All!" 50 ≠ []) ∧
    (0 < (finalEnglishLines sampleInput).length ∧
      0 < finalEnglishBlockHeight sampleInput) :=
  ⟨by decide, by decide,
    (c9_lines_nonempty (fun s => (s.data.length : ℚ)) "Happy Ugadi to All!" 50
      sampleInput).2.1 (by decide),
    (c9_lines_nonempty (fun s => (s.data.length : ℚ)) "Happy Ugadi to All!" 50
      sampleInput).2.2.1 (by decide)⟩

theorem joinWithSpaces_cons_ne (x : String) (L : List String) (h : L ≠ []) :
    joinWithSpaces (x :: L) = x ++ " " ++ joinWithSpaces L := by
  cases L with
  | nil => exact absurd rfl h
  | cons y ys => rfl

/-- Splicing a space-joined pair into the line list does not change the
space-joined text. -/
theorem joinWithSpaces_splice (a b : String) :
    ∀ (xs ys : List String),
      joinWithSpaces (xs ++ (a ++ " " ++ b) :: ys) =
        joinWithSpaces (xs ++ a :: b :: ys) := by
  intro xs
  induction xs with
  | nil =>
    intro ys
    cases ys with
    | nil => rfl
    | cons y ys =>
      show (a ++ " " ++ b) ++ " " ++ joinWithSpaces (y :: ys) =
        a ++ " " ++ (b ++ " " ++ joinWithSpaces (y :: ys))
      simp only [string_append_assoc]
  | cons x xs ih =>
    intro ys
    rw [List.cons_append, List.cons_append,
      joinWithSpaces_cons_ne x _ (by simp),
      joinWithSpaces_cons_ne x _ (by simp), ih]

/-- The wrap loop preserves the space-joined text of the lines it holds plus
the remaining words, provided no remaining word is empty. -/
theorem wrapTextLoop_join (m : String → ℚ) (mw : ℚ) :
    ∀ (ws lines : List String) (cur : String),
      (∀ w ∈ ws, w ≠ "") → (cur = "" → lines = []) →
      joinWithSpaces (wrapTextLoop m mw ws lines cur) =
        joinWithSpaces (lines ++ (if cur = "" then [] else [cur]) ++ ws) := by
  intro ws
  induction ws with
  | nil =>
    intro lines cur _ h0
    unfold wrapTextLoop
    by_cases hc : cur = ""
    · rw [if_neg (fun h => h hc), if_pos hc]
      simp
    · rw [if_pos hc, if_neg hc]
      simp
  | cons w ws ih =>
    intro lines cur hws h0
    have hw : w ≠ "" := hws w (List.mem_cons_self _ _)
    have hws' : ∀ x ∈ ws, x ≠ "" := fun x hx => hws x (List.mem_cons_of_mem _ hx)
    unfold wrapTextLoop
    by_cases hc : cur = ""
    · rw [hc]
      rw [if_neg (fun h => h.2 rfl), if_neg (fun h => h rfl)]
      rw [ih lines w hws' (fun h => absurd h hw)]
      rw [h0 hc]
      simp [hw]
    · rw [if_pos hc]
      by_cases hlt : mw < m (cur ++ " " ++ w)
      · rw [if_pos ⟨hlt, hc⟩]
        rw [ih (lines ++ [cur]) w hws' (fun h => absurd h hw)]
        rw [if_neg hw, if_neg hc]
        simp
      · rw [if_neg (fun h => hlt h.1)]
        rw [ih lines (cur ++ " " ++ w) hws' (fun h => absurd h (append_sep_ne_empty cur w))]
        rw [if_neg (append_sep_ne_empty cur w), if_neg hc]
        rw [show lines ++ [cur ++ " " ++ w] ++ ws = lines ++ (cur ++ " " ++ w) :: ws by simp]
        rw [show lines ++ [cur] ++ w :: ws = lines ++ cur :: w :: ws by simp]
        exact joinWithSpaces_splice cur w lines ws

theorem splitCharsAux_ne_nil : ∀ (cs acc : List Char), splitCharsAux cs acc ≠ [] := by
  intro cs
  induction cs with
  | nil => intro acc; simp [splitCharsAux]
  | cons c cs ih =>
    intro acc
    unfold splitCharsAux
    by_cases hsp : c = ' '
    · rw [if_pos hsp]; simp
    · rw [if_neg hsp]; exact ih (c :: acc)

theorem joinChars_cons_ne (w : List Char) (L : List (List Char)) (h : L ≠ []) :
    joinChars (w :: L) = w ++ ' ' :: joinChars L := by
  cases L with
  | nil => exact absurd rfl h
  | cons y ys => rfl

/-- Joining the words of `splitCharsAux` with single spaces restores the
original characters (prefixed by the reversed accumulator). -/
theorem joinChars_splitCharsAux :
    ∀ (cs acc : List Char), joinChars (splitCharsAux cs acc) = acc.reverse ++ cs := by
  intro cs
  induction cs with
  | nil =>
    intro acc
    simp [splitCharsAux, joinChars]
  | cons c cs ih =>
    intro acc
    unfold splitCharsAux
    by_cases hsp : c = ' '
    · rw [if_pos hsp]
      rw [joinChars_cons_ne _ _ (splitCharsAux_ne_nil cs []), ih []]
      rw [hsp]
      simp
    · rw [if_neg hsp, ih (c :: acc)]
      simp

theorem joinWithSpaces_map_mk :
    ∀ ls : List (List Char), joinWithSpaces (ls.map String.mk) = String.mk (joinChars ls) := by
  intro ls
  induction ls with
  | nil => rfl
  | cons a t ih =>
    cases t with
    | nil => rfl
    | cons b t' =>
      rw [List.map_cons, joinWithSpaces_cons_ne _ _ (by simp),
        joinChars_cons_ne _ _ (by simp), ih]
      apply string_data_ext
      rw [data_append, data_append, data_mk, data_mk, data_space]
      simp

/-- Joining `splitWords` with single spaces restores the original text. -/
theorem joinWithSpaces_splitWords (t : String) : joinWithSpaces (splitWords t) = t := by
  unfold splitWords
  rw [joinWithSpaces_map_mk, joinChars_splitCharsAux]
  cases t
  rfl

/-- For a well-spaced text, `splitWords` contains no empty word. -/
theorem splitCharsAux_no_empty_word :
    ∀ (cs acc : List Char),
      (acc = [] → cs.head? ≠ some ' ') →
      cs.getLast? ≠ some ' ' →
      (cs = [] → acc ≠ []) →
      pairwiseNonSpace cs →
      ∀ w ∈ splitCharsAux cs acc, w ≠ [] := by
  intro cs
  induction cs with
  | nil =>
    intro acc _ _ h3 _ w hw
    unfold splitCharsAux at hw
    rcases List.mem_singleton.mp hw with rfl
    simp only [ne_eq, List.reverse_eq_nil_iff]
    exact h3 rfl
  | cons c cs ih =>
    intro acc h1 h2 _ h4 w hw
    unfold splitCharsAux at hw
    by_cases hsp : c = ' '
    · rw [if_pos hsp] at hw
      have hacc : acc ≠ [] := by
        intro he
        exact h1 he (by rw [hsp]; rfl)
      have hcs : cs ≠ [] := by
        intro he
        apply h2
        rw [he, hsp]
        rfl
      rcases List.mem_cons.mp hw with rfl | hw
      · simpa using hacc
      · rcases cs with _ | ⟨d, cs'⟩
        · exact absurd rfl hcs
        · have hrel : c ≠ ' ' ∨ d ≠ ' ' := h4.1
          have hd : d ≠ ' ' := by
            rcases hrel with h | h
            · exact absurd hsp h
            · exact h
          refine ih [] (fun _ => ?_) ?_ (by simp) h4.2 w hw
          · intro hh
            exact hd (by simpa using hh)
          · rw [List.getLast?_cons_cons] at h2
            exact h2
    · rw [if_neg hsp] at hw
      refine ih (c :: acc) (by simp) ?_ (by simp) ?_ w hw
      · rcases cs with _ | ⟨d, cs'⟩
        · simp
        · rw [List.getLast?_cons_cons] at h2
          exact h2
      · rcases cs with _ | ⟨d, cs'⟩
        · trivial
        · exact h4.2

theorem splitWords_no_empty_word {t : String} (hW : wellSpaced t) (ht : t ≠ "") :
    ∀ w ∈ splitWords t, w ≠ "" := by
  intro w hw
  unfold splitWords at hw
  rcases List.mem_map.mp hw with ⟨w', hw', rfl⟩
  have hdata : t.data ≠ [] := by
    intro hd
    apply ht
    cases t
    simpa [mk_eq_empty_iff] using hd
  have := splitCharsAux_no_empty_word t.data [] (fun _ => hW.1) hW.2.1
    (fun hd => absurd hd hdata) hW.2.2 w' hw'
  intro hmk
  exact this ((mk_eq_empty_iff w').mp hmk)

/-- C10: for an input text with no leading, trailing, or consecutive space
characters, concatenating the lines returned by `wrapText` with single spaces
yields exactly the original text — every word is preserved exactly once, in
order, never split or merged. -/
theorem c10_wrap_preserves_text (measure : String → ℚ) (text : String) (maxWidth : ℚ)
    (h : wellSpaced text) :
    joinWithSpaces (wrapText measure text maxWidth) = text := by
  by_cases ht : text = ""
  · rw [ht]
    rfl
  · unfold wrapText
    rw [if_neg ht]
    rw [wrapTextLoop_join measure maxWidth (splitWords text) [] ""
      (splitWords_no_empty_word h ht) (fun _ => rfl)]
    simpa using joinWithSpaces_splitWords text

/-- Witness for C10 at a concrete input: wrapping `"ab c d"` at width 4 with a
character-count measure and re-joining with spaces restores `"ab c d"`. -/
theorem c10_wrap_preserves_text_witness :
    wellSpaced "ab c d" ∧
      joinWithSpaces (wrapText (fun s => (s.data.length : ℚ)) "ab c d" 4) = "ab c d" :=
  ⟨by decide, c10_wrap_preserves_text (fun s => (s.data.length : ℚ)) "ab c d" 4 (by decide)⟩

/-- C8: wrapping the empty string returns the empty sequence for every
measurement function and width, and when both texts are empty or
whitespace-only the solver produces zero lines, zero block heights, and zero
total text height. -/
theorem c8_empty_inputs (measure : String → ℚ) (maxWidth : ℚ) (p : OverlayInput)
    (he : jsTrim p.engText = "") (ht : jsTrim p.telText = "") :
    wrapText measure "" maxWidth = [] ∧
    finalEnglishLines p = [] ∧ finalTeluguLines p = [] ∧
    finalEnglishBlockHeight p = 0 ∧ finalTeluguBlockHeight p = 0 ∧
    finalTotalTextHeight p = 0 := by
  have hE : ¬hasEnglish p := fun h => h.2 he
  have hT : ¬hasTelugu p := fun h => h.2 ht
  have heL : finalEnglishLines p = [] := by
    unfold finalEnglishLines englishLines
    rw [if_neg hE]
  have htL : finalTeluguLines p = [] := by
    unfold finalTeluguLines teluguLines
    rw [if_neg hT]
  have heB : finalEnglishBlockHeight p = 0 := by
    unfold finalEnglishBlockHeight englishBlockHeight
    rw [show englishLines p (finalEnglishFontSize p) = [] from heL]
    simp
  have htB : finalTeluguBlockHeight p = 0 := by
    unfold finalTeluguBlockHeight teluguBlockHeight
    rw [show teluguLines p (finalTeluguFontSize p) = [] from htL]
    simp
  refine ⟨rfl, heL, htL, heB, htB, ?_⟩
  unfold finalTotalTextHeight totalTextHeight
  rw [if_neg (fun h => hE h.1)]
  have h1 : englishBlockHeight p (finalEnglishFontSize p) = 0 := heB
  have h2 : teluguBlockHeight p (finalTeluguFontSize p) = 0 := htB
  rw [h1, h2]
  ring

/-- Witness for C8 at a concrete input: the composition with empty English
text and whitespace-only Telugu text has empty blocks and zero total
height. -/
theorem c8_empty_inputs_witness :
    jsTrim blankInput.engText = "" ∧ jsTrim blankInput.telText = "" ∧
      (wrapText (fun _ => (1 : ℚ)) "" 10 = [] ∧
       finalEnglishLines blankInput = [] ∧ finalTeluguLines blankInput = [] ∧
       finalEnglishBlockHeight blankInput = 0 ∧ finalTeluguBlockHeight blankInput = 0 ∧
       finalTotalTextHeight blankInput = 0) :=
  ⟨by decide, by decide,
    c8_empty_inputs (fun _ => (1 : ℚ)) 10 blankInput (by decide) (by decide)⟩

/-- C4: the inter-block padding constant enters the total text height exactly
when both texts are present and both wrapped line sets are non-empty; in
particular, when either text is empty or whitespace-only the total is just
the sum of the two block heights. -/
theorem c4_padding_conditional (p : OverlayInput) (eF tF : ℚ) :
    (jsTrim p.engText = "" ∨ jsTrim p.telText = "" →
      totalTextHeight p eF tF = englishBlockHeight p eF + teluguBlockHeight p tF) ∧
    (totalTextHeight p eF tF =
        englishBlockHeight p eF + interTextPadding p + teluguBlockHeight p tF ↔
      padApplies p eF tF) ∧
    interTextPadding p = max 15 (p.height * 0.03) := by
  refine ⟨?_, ?_, rfl⟩
  · intro h
    unfold totalTextHeight
    rw [if_neg]
    · ring
    · rintro ⟨hE, hT, -, -⟩
      rcases h with h | h
      · exact hE.2 h
      · exact hT.2 h
  · constructor
    · intro heq
      by_contra hpad
      rw [totalTextHeight, if_neg hpad] at heq
      have h15 : (15 : ℚ) ≤ interTextPadding p := le_max_left _ _
      have : interTextPadding p = 0 := by linarith
      linarith
    · intro hpad
      rw [totalTextHeight, if_pos hpad]

/-- Witness for C4 at a concrete input: the sample English-only composition
has no padding contribution, and the padding equation characterizes
`padApplies` there. -/
theorem c4_padding_conditional_witness :
    (jsTrim sampleInput.telText = "") ∧
      totalTextHeight sampleInput 72 90 =
        englishBlockHeight sampleInput 72 + teluguBlockHeight sampleInput 90 :=
  ⟨by decide,
    (c4_padding_conditional sampleInput 72 90).1 (Or.inr (by decide))⟩

/-- C7: the language preference constrains the returned `PosterDetails`:
preference `english` forces `teluguText = ""` and preference `telugu` forces
`englishText = ""`, whatever the provider returned. -/
theorem c7_language_constraint (d : PosterDetails) :
    (validatePosterDetails LanguagePreference.english d).teluguText = "" ∧
    (validatePosterDetails LanguagePreference.telugu d).englishText = "" := by
  constructor
  · unfold validatePosterDetails
    have h1 : (suppressTelugu LanguagePreference.english d).teluguText = "" := by
      unfold suppressTelugu
      by_cases h : d.teluguText = ""
      · rw [if_neg (fun hh => hh.2 h)]
        exact h
      · rw [if_pos ⟨rfl, h⟩]
    unfold suppressEnglish
    split
    · exact h1
    · exact h1
  · unfold validatePosterDetails
    unfold suppressEnglish
    by_cases h : (suppressTelugu LanguagePreference.telugu d).englishText = ""
    · rw [if_neg (fun hh => hh.2 h)]
      exact h
    · rw [if_pos ⟨rfl, h⟩]

/-- C6: `drawImageWithTextOverlay` rejects exactly when the canvas element is
missing, the 2D context is unavailable, or the background image fails to
load; in every other case — whatever the texts — it resolves with a PNG
data-URI of the composed canvas. -/
theorem c6_error_behavior (env : CanvasEnv) (mE mT : ℚ → String → ℚ)
    (engText telText : String) :
    (env.canvasFound = false →
      drawImageWithTextOverlay env mE mT engText telText =
        Except.error "Canvas element not found") ∧
    (env.canvasFound = true → env.contextOk = false →
      drawImageWithTextOverlay env mE mT engText telText =
        Except.error "Failed to get canvas context") ∧
    (env.canvasFound = true → env.contextOk = true → env.loadedImage = none →
      drawImageWithTextOverlay env mE mT engText telText =
        Except.error "Failed to load base image.") ∧
    (∀ w h : ℚ, env.canvasFound = true → env.contextOk = true →
      env.loadedImage = some (w, h) →
      drawImageWithTextOverlay env mE mT engText telText =
        Except.ok ⟨"image/png", w, h, drawnLines ⟨w, h, engText, telText, mE, mT⟩⟩) := by
  refine ⟨?_, ?_, ?_, ?_⟩
  · intro h
    unfold drawImageWithTextOverlay
    rw [if_pos h]
  · intro h1 h2
    unfold drawImageWithTextOverlay
    rw [if_neg (by simp [h1]), if_pos h2]
  · intro h1 h2 h3
    unfold drawImageWithTextOverlay
    rw [if_neg (by simp [h1]), if_neg (by simp [h2]), h3]
  · intro w h h1 h2 h3
    unfold drawImageWithTextOverlay
    rw [if_neg (by simp [h1]), if_neg (by simp [h2]), h3]

/-- Witness for C6 at concrete inputs: a failed image load rejects with the
image error, and a successful environment resolves with a PNG data-URI even
for a long text. -/
theorem c6_error_behavior_witness :
    drawImageWithTextOverlay ⟨true, true, none⟩ (fun _ _ => 1) (fun _ _ => 1)
        "a" "b" = Except.error "Failed to load base image." ∧
    drawImageWithTextOverlay ⟨true, true, some (162, 135)⟩
        (fun _ _ => 10000) (fun _ _ => 10000) "" "a a a a a a a a a a a a" =
      Except.ok ⟨"image/png", 162, 135, drawnLines wideInput⟩ :=
  ⟨(c6_error_behavior ⟨true, true, none⟩ (fun _ _ => 1) (fun _ _ => 1) "a" "b").2.2.1
      rfl rfl rfl,
    (c6_error_behavior ⟨true, true, some (162, 135)⟩ (fun _ _ => 10000) (fun _ _ => 10000)
      "" "a a a a a a a a a a a a").2.2.2 162 135 rfl rfl rfl⟩

theorem shrinkSizes_fst_le (p : OverlayInput) (s : ℚ × ℚ)
    (h : minFontSize p ≤ s.1) : (shrinkSizes p s).1 ≤ s.1 := by
  unfold shrinkSizes
  dsimp only
  split
  · refine max_le h (mul_le_of_le_one_right ?_ (by norm_num))
    have := eight_le_minFontSize p
    linarith
  · exact le_refl _

theorem shrinkSizes_snd_le (p : OverlayInput) (s : ℚ × ℚ)
    (h : minFontSize p ≤ s.2) : (shrinkSizes p s).2 ≤ s.2 := by
  unfold shrinkSizes
  dsimp only
  split
  · refine max_le h (mul_le_of_le_one_right ?_ (by norm_num))
    have := eight_le_minFontSize p
    linarith
  · exact le_refl _

theorem shrinkSizes_fst_cases (p : OverlayInput) (s : ℚ × ℚ) :
    (shrinkSizes p s).1 = s.1 ∨
      (shrinkSizes p s).1 = max (minFontSize p) (s.1 * 0.9) := by
  unfold shrinkSizes
  dsimp only
  split
  · exact Or.inr rfl
  · exact Or.inl rfl

theorem shrinkSizes_snd_cases (p : OverlayInput) (s : ℚ × ℚ) :
    (shrinkSizes p s).2 = s.2 ∨
      (shrinkSizes p s).2 = max (minFontSize p) (s.2 * 0.9) := by
  unfold shrinkSizes
  dsimp only
  split
  · exact Or.inr rfl
  · exact Or.inl rfl

theorem shrinkSizes_fst_unchanged (p : OverlayInput) (s : ℚ × ℚ)
    (h : ¬(hasEnglish p ∧ minFontSize p < s.1)) : (shrinkSizes p s).1 = s.1 := by
  unfold shrinkSizes
  dsimp only
  rw [if_neg h]

theorem shrinkSizes_snd_unchanged (p : OverlayInput) (s : ℚ × ℚ)
    (h : ¬(hasTelugu p ∧ minFontSize p < s.2)) : (shrinkSizes p s).2 = s.2 := by
  unfold shrinkSizes
  dsimp only
  rw [if_neg h]

/-- The fit loop never increases either font size. -/
theorem fitLoop_le (p : OverlayInput) :
    ∀ (n : ℕ) (s : ℚ × ℚ), minFontSize p ≤ s.1 → minFontSize p ≤ s.2 →
      (fitLoop p n s).1 ≤ s.1 ∧ (fitLoop p n s).2 ≤ s.2 := by
  intro n
  induction n with
  | zero => intro s _ _; exact ⟨le_refl _, le_refl _⟩
  | succ n ih =>
    intro s h1 h2
    rw [fitLoop_succ]
    split
    · exact ⟨le_refl _, le_refl _⟩
    · split
      · exact ⟨le_refl _, le_refl _⟩
      · have hrec := ih (shrinkSizes p s) (le_shrinkSizes_fst p s h1) (le_shrinkSizes_snd p s h2)
        exact ⟨le_trans hrec.1 (shrinkSizes_fst_le p s h1),
          le_trans hrec.2 (shrinkSizes_snd_le p s h2)⟩

/-- Decay of the fit loop: unless it exits because the stack fits, each
present block's font size is pushed down by a factor `0.9` per iteration,
floored at the minimum font size. -/
theorem fitLoop_decay (p : OverlayInput) :
    ∀ (n : ℕ) (s : ℚ × ℚ), minFontSize p ≤ s.1 → minFontSize p ≤ s.2 →
      totalTextHeight p (fitLoop p n s).1 (fitLoop p n s).2 ≤ availableHeightForText p ∨
      ((hasEnglish p → (fitLoop p n s).1 ≤ max (minFontSize p) (s.1 * (0.9 : ℚ) ^ n)) ∧
       (hasTelugu p → (fitLoop p n s).2 ≤ max (minFontSize p) (s.2 * (0.9 : ℚ) ^ n))) := by
  have hq1 : ∀ k : ℕ, ((0.9 : ℚ)) ^ k ≤ 1 := fun k => pow_le_one₀ (by norm_num) (by norm_num)
  have hq0 : ∀ k : ℕ, (0 : ℚ) ≤ (0.9 : ℚ) ^ k := fun k => pow_nonneg (by norm_num) k
  have hmin0 : 0 ≤ minFontSize p := le_of_lt (minFontSize_pos p)
  intro n
  induction n with
  | zero =>
    intro s _ _
    refine Or.inr ⟨fun _ => ?_, fun _ => ?_⟩ <;>
      · rw [pow_zero, mul_one]
        exact le_max_right _ _
  | succ n ih =>
    intro s h1 h2
    rw [fitLoop_succ]
    split
    · rename_i hfit
      exact Or.inl hfit
    · split
      · rename_i hboth
        exact Or.inr ⟨fun _ => le_trans hboth.1 (le_max_left _ _),
          fun _ => le_trans hboth.2 (le_max_left _ _)⟩
      · rcases ih (shrinkSizes p s) (le_shrinkSizes_fst p s h1) (le_shrinkSizes_snd p s h2)
          with h | ⟨hE, hT⟩
        · exact Or.inl h
        · refine Or.inr ⟨fun hEng => ?_, fun hTel => ?_⟩
          · refine le_trans (hE hEng) (max_le (le_max_left _ _) ?_)
            unfold shrinkSizes
            dsimp only
            split
            · rw [max_mul_of_nonneg _ _ (hq0 n)]
              refine max_le (le_trans ?_ (le_max_left _ _))
                (le_trans (le_of_eq (by ring)) (le_max_right _ _))
              exact mul_le_of_le_one_right hmin0 (hq1 n)
            · rename_i hcond
              have hs1 : s.1 = minFontSize p :=
                le_antisymm (le_of_not_lt fun hlt => hcond ⟨hEng, hlt⟩) h1
              rw [hs1]
              exact le_trans (mul_le_of_le_one_right hmin0 (hq1 n)) (le_max_left _ _)
          · refine le_trans (hT hTel) (max_le (le_max_left _ _) ?_)
            unfold shrinkSizes
            dsimp only
            split
            · rw [max_mul_of_nonneg _ _ (hq0 n)]
              refine max_le (le_trans ?_ (le_max_left _ _))
                (le_trans (le_of_eq (by ring)) (le_max_right _ _))
              exact mul_le_of_le_one_right hmin0 (hq1 n)
            · rename_i hcond
              have hs2 : s.2 = minFontSize p :=
                le_antisymm (le_of_not_lt fun hlt => hcond ⟨hTel, hlt⟩) h2
              rw [hs2]
              exact le_trans (mul_le_of_le_one_right hmin0 (hq1 n)) (le_max_left _ _)

/-- After 20 shrink steps the initial English font size has decayed below the
floor. -/
theorem initialEnglish_decay (p : OverlayInput) :
    initialEnglishFontSize p * (0.9 : ℚ) ^ maxIterations ≤ minFontSize p := by
  have hq1 : ((0.9 : ℚ)) ^ maxIterations ≤ 1 := pow_le_one₀ (by norm_num) (by norm_num)
  have hq0 : (0 : ℚ) ≤ (0.9 : ℚ) ^ maxIterations := pow_nonneg (by norm_num) _
  unfold initialEnglishFontSize
  rcases le_or_lt (min (p.width / 18) (p.height / 15)) (minFontSize p) with h | h
  · rw [max_eq_left h]
    exact mul_le_of_le_one_right (le_of_lt (minFontSize_pos p)) hq1
  · rw [max_eq_right (le_of_lt h)]
    have hm : min (p.width / 18) (p.height / 15) ≤ p.width / 18 := min_le_left _ _
    have h8 : (8 : ℚ) ≤ minFontSize p := eight_le_minFontSize p
    have hw : 0 < p.width := by
      have h18 : (8 : ℚ) < p.width / 18 := lt_of_lt_of_le (lt_of_le_of_lt h8 h) hm
      linarith
    have hq : (0.9 : ℚ) ^ maxIterations ≤ 18 / 70 := by
      rw [show maxIterations = 20 from rfl]
      norm_num
    calc min (p.width / 18) (p.height / 15) * (0.9 : ℚ) ^ maxIterations
        ≤ p.width / 18 * (0.9 : ℚ) ^ maxIterations := mul_le_mul_of_nonneg_right hm hq0
      _ ≤ p.width / 18 * (18 / 70) := mul_le_mul_of_nonneg_left hq (by positivity)
      _ = p.width / 70 := by ring
      _ ≤ minFontSize p := le_max_right _ _

/-- After 20 shrink steps the initial Telugu font size has decayed below the
floor. -/
theorem initialTelugu_decay (p : OverlayInput) :
    initialTeluguFontSize p * (0.9 : ℚ) ^ maxIterations ≤ minFontSize p := by
  have hq1 : ((0.9 : ℚ)) ^ maxIterations ≤ 1 := pow_le_one₀ (by norm_num) (by norm_num)
  have hq0 : (0 : ℚ) ≤ (0.9 : ℚ) ^ maxIterations := pow_nonneg (by norm_num) _
  unfold initialTeluguFontSize
  rcases le_or_lt (min (p.width / 16) (p.height / 12)) (minFontSize p) with h | h
  · rw [max_eq_left h]
    exact mul_le_of_le_one_right (le_of_lt (minFontSize_pos p)) hq1
  · rw [max_eq_right (le_of_lt h)]
    have hm : min (p.width / 16) (p.height / 12) ≤ p.width / 16 := min_le_left _ _
    have h8 : (8 : ℚ) ≤ minFontSize p := eight_le_minFontSize p
    have hw : 0 < p.width := by
      have h16 : (8 : ℚ) < p.width / 16 := lt_of_lt_of_le (lt_of_le_of_lt h8 h) hm
      linarith
    have hq : (0.9 : ℚ) ^ maxIterations ≤ 16 / 70 := by
      rw [show maxIterations = 20 from rfl]
      norm_num
    calc min (p.width / 16) (p.height / 12) * (0.9 : ℚ) ^ maxIterations
        ≤ p.width / 16 * (0.9 : ℚ) ^ maxIterations := mul_le_mul_of_nonneg_right hm hq0
      _ ≤ p.width / 16 * (16 / 70) := mul_le_mul_of_nonneg_left hq (by positivity)
      _ = p.width / 70 := by ring
      _ ≤ minFontSize p := le_max_right _ _

/-- C1 (amended): for every input and positive canvas, the fit loop (bounded
by 20 iterations) ends with both font sizes at or above `minFontSize`, and on
exit either the total stacked height fits the available height, or every
block whose text is present has its font size at `minFontSize` (the font size
of an absent block is never shrunk and may stay above the floor). -/
theorem c1_fit_convergence (p : OverlayInput) (hw : 0 < p.width) (hh : 0 < p.height) :
    minFontSize p ≤ finalEnglishFontSize p ∧
    minFontSize p ≤ finalTeluguFontSize p ∧
    (finalTotalTextHeight p ≤ availableHeightForText p ∨
      ((hasEnglish p → finalEnglishFontSize p = minFontSize p) ∧
       (hasTelugu p → finalTeluguFontSize p = minFontSize p))) := by
  refine ⟨minFontSize_le_finalEnglishFontSize p, minFontSize_le_finalTeluguFontSize p, ?_⟩
  rcases fitLoop_decay p maxIterations (initialEnglishFontSize p, initialTeluguFontSize p)
    (le_max_left _ _) (le_max_left _ _) with h | ⟨hE, hT⟩
  · exact Or.inl h
  · refine Or.inr ⟨fun hEng => ?_, fun hTel => ?_⟩
    · refine le_antisymm ?_ (minFontSize_le_finalEnglishFontSize p)
      exact le_trans (hE hEng) (max_le (le_refl _) (initialEnglish_decay p))
    · refine le_antisymm ?_ (minFontSize_le_finalTeluguFontSize p)
      exact le_trans (hT hTel) (max_le (le_refl _) (initialTelugu_decay p))

/-- Witness for the amended C1 at a concrete input: the sample 1920-by-1080
composition satisfies the amended exit condition. -/
theorem c1_fit_convergence_witness :
    (0 : ℚ) < sampleInput.width ∧ (0 : ℚ) < sampleInput.height ∧
      (minFontSize sampleInput ≤ finalEnglishFontSize sampleInput ∧
       minFontSize sampleInput ≤ finalTeluguFontSize sampleInput ∧
       (finalTotalTextHeight sampleInput ≤ availableHeightForText sampleInput ∨
         ((hasEnglish sampleInput → finalEnglishFontSize sampleInput = minFontSize sampleInput) ∧
          (hasTelugu sampleInput → finalTeluguFontSize sampleInput = minFontSize sampleInput)))) :=
  ⟨of_decide_eq_true (by with_unfolding_all rfl),
   of_decide_eq_true (by with_unfolding_all rfl),
   c1_fit_convergence sampleInput (of_decide_eq_true (by with_unfolding_all rfl))
     (of_decide_eq_true (by with_unfolding_all rfl))⟩

/-- Counterexample to C1 as stated: on the 162-by-135 canvas with an empty
English text and twelve over-wide Telugu words, the loop exhausts its 20
iterations with the total height still above the available height while the
English font size (9) stays above the floor (8), so the claimed exit
disjunction fails even though the canvas is positive. -/
theorem c1_exit_counterexample :
    (0 : ℚ) < wideInput.width ∧ (0 : ℚ) < wideInput.height ∧
    ¬(finalTotalTextHeight wideInput ≤ availableHeightForText wideInput ∨
      (finalEnglishFontSize wideInput = minFontSize wideInput ∧
       finalTeluguFontSize wideInput = minFontSize wideInput)) :=
  of_decide_eq_true (by with_unfolding_all rfl)

/-- C5: one iteration of the fit loop either leaves each font size unchanged
or multiplies it by 0.9 floored at `minFontSize`; a size changes only when
its block's text is present and the size is above the floor; and across any
number of iterations neither font size increases. -/
theorem c5_monotonic_shrink (p : OverlayInput) (s : ℚ × ℚ) (n : ℕ)
    (h1 : minFontSize p ≤ s.1) (h2 : minFontSize p ≤ s.2) :
    ((shrinkSizes p s).1 = s.1 ∨ (shrinkSizes p s).1 = max (minFontSize p) (s.1 * 0.9)) ∧
    ((shrinkSizes p s).2 = s.2 ∨ (shrinkSizes p s).2 = max (minFontSize p) (s.2 * 0.9)) ∧
    (shrinkSizes p s).1 ≤ s.1 ∧ (shrinkSizes p s).2 ≤ s.2 ∧
    ((shrinkSizes p s).1 ≠ s.1 → hasEnglish p ∧ minFontSize p < s.1) ∧
    ((shrinkSizes p s).2 ≠ s.2 → hasTelugu p ∧ minFontSize p < s.2) ∧
    (fitLoop p n s).1 ≤ s.1 ∧ (fitLoop p n s).2 ≤ s.2 := by
  refine ⟨shrinkSizes_fst_cases p s, shrinkSizes_snd_cases p s,
    shrinkSizes_fst_le p s h1, shrinkSizes_snd_le p s h2, ?_, ?_,
    (fitLoop_le p n s h1 h2).1, (fitLoop_le p n s h1 h2).2⟩
  · intro hne
    by_contra hc
    exact hne (shrinkSizes_fst_unchanged p s hc)
  · intro hne
    by_contra hc
    exact hne (shrinkSizes_snd_unchanged p s hc)

/-- Witness for C5 at a concrete input: one shrink step on the wide input at
sizes (9, 10) multiplies the Telugu size by 0.9 and leaves the English size
alone, and the loop never increases either size. -/
theorem c5_monotonic_shrink_witness :
    minFontSize wideInput ≤ ((9 : ℚ), (10 : ℚ)).1 ∧
    minFontSize wideInput ≤ ((9 : ℚ), (10 : ℚ)).2 ∧
    ((shrinkSizes wideInput (9, 10)).1 ≤ 9 ∧ (shrinkSizes wideInput (9, 10)).2 ≤ 10 ∧
      (fitLoop wideInput 3 (9, 10)).1 ≤ 9 ∧ (fitLoop wideInput 3 (9, 10)).2 ≤ 10) :=
  ⟨of_decide_eq_true (by with_unfolding_all rfl),
   of_decide_eq_true (by with_unfolding_all rfl),
   (c5_monotonic_shrink wideInput (9, 10) 3
      (of_decide_eq_true (by with_unfolding_all rfl))
      (of_decide_eq_true (by with_unfolding_all rfl))).2.2.1,
   (c5_monotonic_shrink wideInput (9, 10) 3
      (of_decide_eq_true (by with_unfolding_all rfl))
      (of_decide_eq_true (by with_unfolding_all rfl))).2.2.2.1,
   (c5_monotonic_shrink wideInput (9, 10) 3
      (of_decide_eq_true (by with_unfolding_all rfl))
      (of_decide_eq_true (by with_unfolding_all rfl))).2.2.2.2.2.2.1,
   (c5_monotonic_shrink wideInput (9, 10) 3
      (of_decide_eq_true (by with_unfolding_all rfl))
      (of_decide_eq_true (by with_unfolding_all rfl))).2.2.2.2.2.2.2⟩

theorem drawBlock_nil (x c lh : ℚ) : drawBlock [] x c lh = [] := rfl

theorem finalEnglishLines_eq_nil (p : OverlayInput)
    (h : ¬(hasEnglish p ∧ 0 < (finalEnglishLines p).length)) :
    finalEnglishLines p = [] := by
  by_cases hE : hasEnglish p
  · have hl : ¬0 < (finalEnglishLines p).length := fun hl => h ⟨hE, hl⟩
    exact List.length_eq_zero.mp (Nat.eq_zero_of_not_pos hl)
  · unfold finalEnglishLines englishLines
    rw [if_neg hE]

theorem finalTeluguLines_eq_nil (p : OverlayInput)
    (h : ¬(hasTelugu p ∧ 0 < (finalTeluguLines p).length)) :
    finalTeluguLines p = [] := by
  by_cases hT : hasTelugu p
  · have hl : ¬0 < (finalTeluguLines p).length := fun hl => h ⟨hT, hl⟩
    exact List.length_eq_zero.mp (Nat.eq_zero_of_not_pos hl)
  · unfold finalTeluguLines teluguLines
    rw [if_neg hT]

/-- C3: the compositor draws the English block first and the Telugu block
below it: the draw calls equal an English block centered at
`startY + englishBlockHeight/2` followed by a Telugu block centered at
`startY + englishBlockHeight + conditional padding + teluguBlockHeight/2`,
where `startY = (canvasHeight - totalTextHeight)/2`, each block's lines are
placed symmetrically around its center by `drawBlock`, and
`lineHeight = fontSize * 1.2`. -/
theorem c3_vertical_layout :
    (∀ p : OverlayInput, drawnLines p =
      drawBlock (finalEnglishLines p) (p.width / 2)
          (startY p + finalEnglishBlockHeight p / 2)
          (lineHeight (finalEnglishFontSize p)) ++
        drawBlock (finalTeluguLines p) (p.width / 2)
          (startY p + finalEnglishBlockHeight p +
            (if padApplies p (finalEnglishFontSize p) (finalTeluguFontSize p) then
              interTextPadding p
            else 0) +
            finalTeluguBlockHeight p / 2)
          (lineHeight (finalTeluguFontSize p))) ∧
    (∀ f : ℚ, lineHeight f = f * 1.2) := by
  refine ⟨?_, fun _ => rfl⟩
  intro p
  unfold drawnLines
  by_cases hE : hasEnglish p ∧ 0 < (finalEnglishLines p).length
  · rw [if_pos hE]
    by_cases hT : hasTelugu p ∧ 0 < (finalTeluguLines p).length
    · rw [if_pos hT, if_pos hT]
      have hpad : padApplies p (finalEnglishFontSize p) (finalTeluguFontSize p) :=
        ⟨hE.1, hT.1, hE.2, hT.2⟩
      rw [if_pos hpad]
      have hc : startY p + finalEnglishBlockHeight p / 2 + finalEnglishBlockHeight p / 2 +
          interTextPadding p + finalTeluguBlockHeight p / 2 =
          startY p + finalEnglishBlockHeight p + interTextPadding p +
          finalTeluguBlockHeight p / 2 := by ring
      rw [hc]
    · rw [if_neg hT]
      rw [finalTeluguLines_eq_nil p hT, drawBlock_nil]
  · rw [if_neg hE]
    have heng : finalEnglishLines p = [] := finalEnglishLines_eq_nil p hE
    have hengBH : finalEnglishBlockHeight p = 0 := by
      unfold finalEnglishBlockHeight englishBlockHeight
      rw [show englishLines p (finalEnglishFontSize p) = [] from heng]
      simp
    have hpad : ¬padApplies p (finalEnglishFontSize p) (finalTeluguFontSize p) :=
      fun hp => hE ⟨hp.1, hp.2.2.1⟩
    rw [heng, drawBlock_nil, hengBH, if_neg hpad]
    by_cases hT : hasTelugu p ∧ 0 < (finalTeluguLines p).length
    · rw [if_pos hT]
      have hc : startY p + (0 : ℚ) + (0 : ℚ) + finalTeluguBlockHeight p / 2 =
          startY p + finalTeluguBlockHeight p / 2 := by ring
      rw [hc]
      simp
    · rw [if_neg hT]
      rw [finalTeluguLines_eq_nil p hT, drawBlock_nil]
      simp

/-- Witness for C2 at a concrete input: with a measure function that counts
characters, wrapping `"hi there you"` at width 6 puts `"there"` on its own
line and it satisfies the width bound. -/
theorem c2_wrap_width_witness :
    ("hi" ∈ wrapText (fun s => (s.data.length : ℚ)) "hi there you" 6) ∧
      ((fun (s : String) => (s.data.length : ℚ)) "hi" ≤ 6 ∨
        ("hi" ∈ splitWords "hi there you" ∧
          6 < (fun (s : String) => (s.data.length : ℚ)) "hi")) :=
  ⟨of_decide_eq_true (by with_unfolding_all rfl),
    c2_wrap_width (fun s => (s.data.length : ℚ)) "hi there you" 6 "hi"
      (of_decide_eq_true (by with_unfolding_all rfl))⟩
